import Mathlib

/-!
Verification development for the multimodal LLaMA decoder core in
src/mtllm/models/llama.py.

Shallow embedding conventions:
* tensors over the feature axis are functions `ℕ → ℝ` (`Vec`); the sequence
  axis is a `List`; the batch axis is fixed to one sequence (all claims are
  per-sequence statements, and every operation acts batch-pointwise);
* PyTorch float arithmetic is embedded as exact real arithmetic, so every
  "up to floating-point rounding tolerance" clause of the spec becomes exact
  equality over ℝ;
* the float("-inf") additive attention mask is embedded in `EReal`, with
  exp(-inf) = 0 (`expE`), exactly the limiting semantics the code relies on;
* `.float()` / `.type_as(...)` casts are the identity;
* `nn.Dropout` on the LoRA branch is the identity function in the paths the
  claims exercise (generation runs under eval / torch.no_grad, and the code
  itself binds the identity when lora_dropout = 0); `Attention_LoRA_forward`
  still takes the dropout as an explicit function argument `drop`;
* fallible steps return `Option`: `none` models a raised Python exception.
-/

namespace MTLLM

abbrev Vec : Type := ℕ → ℝ

abbrev Mat : Type := ℕ → ℕ → ℝ

/-- `torch.nn.Linear(n, m, bias=False)` applied to a vector: `y i = ∑ j, W i j * x j`
(PyTorch stores the weight as (out_features, in_features) and computes `x @ W.T`). -/
noncomputable def matVec (W : Mat) (n : ℕ) (x : Vec) : Vec :=
  fun i => ∑ j ∈ Finset.range n, W i j * x j

/-- ModelArgs (src lines 109-130); fields not used by any claim
(gradient_checkpointing, use_xformers, enable_fsdp) are omitted. -/
structure ModelArgs where
  dim : ℕ
  n_layers : ℕ
  n_heads : ℕ
  vocab_size : ℕ
  multiple_of : ℕ
  norm_eps : ℝ
  max_seq_len : ℕ
  use_lora : Bool
  lora_r : ℕ
  lora_alpha : ℝ
  lora_dropout : ℝ
  flash_attention : Bool

/-- `head_dim = args.dim // args.n_heads` (src lines 180, 307, 443): Python floor
division, with no divisibility check anywhere in the constructors. -/
def head_dim (args : ModelArgs) : ℕ := args.dim / args.n_heads

/-- RMSNorm.forward (src lines 132-143):
`x * rsqrt(mean(x^2, last axis) + eps) * weight`, no bias, no mean subtraction. -/
noncomputable def RMSNorm_forward (dim : ℕ) (eps : ℝ) (weight : Vec) (x : Vec) : Vec :=
  fun i => (x i * (Real.sqrt ((∑ j ∈ Finset.range dim, x j ^ 2) / (dim : ℝ) + eps))⁻¹) * weight i

/-- `torch.sigmoid` -/
noncomputable def sigmoid (z : ℝ) : ℝ := 1 / (1 + Real.exp (-z))

/-- `F.silu(z) = z * sigmoid(z)` -/
noncomputable def silu (z : ℝ) : ℝ := z * sigmoid z

/-- FeedForward.__init__ hidden width (src lines 406-415):
`hidden_dim = int(2 * hidden_dim / 3)` (Python truncation = floor on naturals)
then `hidden_dim = multiple_of * ((hidden_dim + multiple_of - 1) // multiple_of)`. -/
def FeedForward_init_hidden (hidden_dim multiple_of : ℕ) : ℕ :=
  multiple_of * ((2 * hidden_dim / 3 + multiple_of - 1) / multiple_of)

/-- FeedForward.forward (src line 431): `w2(F.silu(w1(x)) * w3(x))`. -/
noncomputable def FeedForward_forward (dim hid : ℕ) (w1 w2 w3 : Mat) (x : Vec) : Vec :=
  matVec w2 hid (fun k => silu (matVec w1 dim x k) * matVec w3 dim x k)

/-- One row of the table built by precompute_freqs_cis (src lines 146-151):
position t, pair index p ↦ polar(1, t / theta^(2p/dim)) = exp(i * t * theta^(-2p/dim)). -/
noncomputable def freq_cis_at (dim : ℕ) (theta : ℝ) (t : ℕ) : ℕ → ℂ :=
  fun p => Complex.exp (Complex.I * (((t : ℝ) * (1 / Real.rpow theta (((2 * p : ℕ) : ℝ) / (dim : ℝ)))) : ℝ))

/-- precompute_freqs_cis (src lines 146-151): the dense (end × dim/2) complex table,
one entry function per position. -/
noncomputable def precompute_freqs_cis (dim endPos : ℕ) (theta : ℝ) : List (ℕ → ℂ) :=
  (List.range endPos).map (freq_cis_at dim theta)

/-- Python slice `l[a:b]` for 0 ≤ a ≤ b: silently truncates at the end of the list. -/
def pythonSlice {α : Type} (l : List α) (a b : ℕ) : List α := (l.drop a).take (b - a)

/-- Rotary rotation of one position of one flat (heads*head_dim)-wide vector
(apply_rotary_emb, src lines 162-172): the last axis is viewed as head-major,
each head is viewed as head_dim/2 complex pairs (even index = re, odd = im),
each pair is multiplied by the matching table entry, and the result is
flattened back. -/
noncomputable def apply_rotary_one (D : ℕ) (f : ℕ → ℂ) (v : Vec) : Vec :=
  fun idx =>
    let hh := idx / D
    let c := idx % D
    let p := c / 2
    let z := ((⟨v (hh * D + 2 * p), v (hh * D + 2 * p + 1)⟩ : ℂ) * f p)
    if c % 2 = 0 then z.re else z.im

/-- The shape assertion of reshape_for_broadcast (src lines 154-159):
`assert freqs_cis.shape == (x.shape[1], x.shape[-1])`, i.e. the rotary slice must
have exactly one entry per sequence position (the pair axis is correct by
construction in this embedding). -/
def reshape_for_broadcast_ok (freqs : List (ℕ → ℂ)) (seqlen : ℕ) : Bool :=
  freqs.length == seqlen

/-- apply_rotary_emb over a sequence (src lines 162-172). A failing shape assert
in reshape_for_broadcast is `none`. -/
noncomputable def apply_rotary_emb (D : ℕ) (xq xk : List Vec) (freqs : List (ℕ → ℂ)) :
    Option (List Vec × List Vec) :=
  if reshape_for_broadcast_ok freqs xq.length then
    some (List.zipWith (apply_rotary_one D) freqs xq, List.zipWith (apply_rotary_one D) freqs xk)
  else none

/-- Extended-real exponential: exp(-inf) = 0. (The top case is unreachable: scores
are finite reals plus a mask entry that is 0 or -inf.) -/
noncomputable def expE (x : EReal) : ℝ :=
  if x = ⊥ then 0 else if x = ⊤ then 0 else Real.exp x.toReal

/-- The additive causal mask built in forward_generate (src lines 541-543):
`torch.triu(full((seqlen, seqlen), -inf), diagonal=start_pos + 1)`:
entry (i, j) is -inf iff j ≥ i + start_pos + 1, else 0. -/
def causal_mask (start_pos : ℕ) : ℕ → ℕ → EReal :=
  fun i j => if i + start_pos + 1 ≤ j then (⊥ : EReal) else 0

/-- The per-layer incremental-state dict once both keys are present:
`incremental_state[i]["prev_key"| "prev_value"]`, shaped (batch, len, heads, head_dim);
flattened here to one list of (heads*head_dim)-wide vectors per cached position. -/
structure LayerCache where
  prev_key : List Vec
  prev_value : List Vec

/-- Reading a per-layer dict that may still lack the "prev_key"/"prev_value" keys
(the keys are always written together, src lines 272-277). -/
def interpCache : Option LayerCache → List Vec × List Vec
  | none => ([], [])
  | some c => (c.prev_key, c.prev_value)

/-- Default vector used to read past the end of a list (never reached in any
proved statement; it models out-of-range indexing junk, not source behavior). -/
def nth (l : List Vec) (j : ℕ) : Vec := l.getD j (fun _ => 0)

/-- Scaled dot-product score of one query vector against one key vector on head
`hh` (src line 288 / 392): `(q · k over that head) / sqrt(head_dim)`. -/
noncomputable def rawScore (D : ℕ) (q k : Vec) (hh : ℕ) : ℝ :=
  (∑ c ∈ Finset.range D, q (hh * D + c) * k (hh * D + c)) / Real.sqrt (D : ℝ)

/-- The shared score/softmax/value pipeline of both attention classes
(src lines 281-297 and 384-401): per query index the scores over all keys get
the optional additive mask, a softmax (in higher precision, cast back = identity
over ℝ), are multiplied by the values, and the heads are merged back into a flat
vector (`transpose(1,2).contiguous().view(bsz, seqlen, -1)` makes the flat index
idx read head idx/D, component idx%D, i.e. component idx of the flat value). -/
noncomputable def attnOut (D : ℕ) (qs ks vs : List Vec) (mask : Option (ℕ → ℕ → EReal)) :
    List Vec :=
  (List.range qs.length).map fun i => fun idx =>
    let s : ℕ → EReal := fun j =>
      match mask with
      | none => ((rawScore D (nth qs i) (nth ks j) (idx / D) : ℝ) : EReal)
      | some m => ((rawScore D (nth qs i) (nth ks j) (idx / D) : ℝ) : EReal) + m i j
    ∑ j ∈ Finset.range ks.length,
      expE (s j) / (∑ jj ∈ Finset.range ks.length, expE (s jj)) * nth vs j idx

/-- The body shared verbatim by Attention_LoRA.forward (src lines 244-299) and
Attention.forward (src lines 343-403, explicit non-flash branch), parameterized by
the four projections: project to Q/K/V, reshape per head, rotary-rotate Q and K,
concatenate the cached K/V (if an incremental dict was passed) in front and store
the result back, run the score pipeline, and apply the output projection.
`incr = none` models calling with incremental_state=None (no cache ops);
`incr = some d` models a passed-in per-layer dict with content `d`. -/
noncomputable def attnGeneric (D : ℕ) (pq pk pv po : Vec → Vec)
    (x : List Vec) (start_pos : ℕ) (freqs : List (ℕ → ℂ)) (mask : Option (ℕ → ℕ → EReal))
    (incr : Option (Option LayerCache)) : Option (List Vec × Option LayerCache) :=
  match apply_rotary_emb D (x.map pq) (x.map pk) freqs with
  | none => none
  | some qk =>
    let xv := x.map pv
    match incr with
    | none => some ((attnOut D qk.1 qk.2 xv mask).map po, none)
    | some d =>
      let ks := (interpCache d).1 ++ qk.2
      let vs := (interpCache d).2 ++ xv
      some ((attnOut D qk.1 ks vs mask).map po, some ⟨ks, vs⟩)

/-- Learned tensors of one attention module (base projections, LoRA factors and
the LoRA gain `scaling = lora_alpha / lora_r`, src lines 182-211). -/
structure AttentionWeights where
  wq : Mat
  wk : Mat
  wv : Mat
  wo : Mat
  wq_lora_A : Mat
  wq_lora_B : Mat
  wk_lora_A : Mat
  wk_lora_B : Mat
  wv_lora_A : Mat
  wv_lora_B : Mat
  wo_lora_A : Mat
  wo_lora_B : Mat
  scaling : ℝ

/-- A LoRA-adapted projection (src lines 249-251, 299):
`W(v) + (drop(v) @ A @ B) * scaling`. `n_in` is the base Linear in_features,
`n_lora` the row count of A (always args.dim in the source). -/
noncomputable def lora_linear (n_in n_lora r : ℕ) (W A B : Mat) (scaling : ℝ)
    (drop : Vec → Vec) (v : Vec) : Vec :=
  fun i => matVec W n_in v i +
    (∑ kk ∈ Finset.range r, (∑ j ∈ Finset.range n_lora, drop v j * A j kk) * B kk i) * scaling

/-- Attention_LoRA.reset_parameters (src lines 228-236): kaiming-uniform draws for
the A factors (abstracted as arbitrary matrices aq/ak/av/ao) and all-zero B factors. -/
def Attention_LoRA_reset_parameters (w : AttentionWeights) (aq ak av ao : Mat) :
    AttentionWeights :=
  { w with
    wq_lora_A := aq, wk_lora_A := ak, wv_lora_A := av, wo_lora_A := ao,
    wq_lora_B := fun _ _ => 0, wk_lora_B := fun _ _ => 0,
    wv_lora_B := fun _ _ => 0, wo_lora_B := fun _ _ => 0 }

/-- Attention_LoRA.forward (src lines 244-299). -/
noncomputable def Attention_LoRA_forward (args : ModelArgs) (w : AttentionWeights)
    (drop : Vec → Vec) (x : List Vec) (start_pos : ℕ) (freqs : List (ℕ → ℂ))
    (mask : Option (ℕ → ℕ → EReal)) (incr : Option (Option LayerCache)) :
    Option (List Vec × Option LayerCache) :=
  attnGeneric (head_dim args)
    (lora_linear args.dim args.dim args.lora_r w.wq w.wq_lora_A w.wq_lora_B w.scaling drop)
    (lora_linear args.dim args.dim args.lora_r w.wk w.wk_lora_A w.wk_lora_B w.scaling drop)
    (lora_linear args.dim args.dim args.lora_r w.wv w.wv_lora_A w.wv_lora_B w.scaling drop)
    (lora_linear (args.n_heads * head_dim args) args.dim args.lora_r
      w.wo w.wo_lora_A w.wo_lora_B w.scaling drop)
    x start_pos freqs mask incr

/-- Attention.forward (src lines 343-403), explicit score branch. The
flash_attention branch (src lines 377-382) calls the external xformers fused
kernel, declared by the spec to be numerically equivalent; it is outside this
embedding. -/
noncomputable def Attention_forward (args : ModelArgs) (w : AttentionWeights)
    (x : List Vec) (start_pos : ℕ) (freqs : List (ℕ → ℂ))
    (mask : Option (ℕ → ℕ → EReal)) (incr : Option (Option LayerCache)) :
    Option (List Vec × Option LayerCache) :=
  attnGeneric (head_dim args)
    (matVec w.wq args.dim) (matVec w.wk args.dim) (matVec w.wv args.dim)
    (matVec w.wo (args.n_heads * head_dim args))
    x start_pos freqs mask incr

/-- Learned tensors of one TransformerBlock (src lines 438-455). -/
structure LayerWeights where
  attention : AttentionWeights
  w1 : Mat
  w2 : Mat
  w3 : Mat
  attention_norm : Vec
  ffn_norm : Vec

/-- TransformerBlock.forward (src lines 473-477):
`h = x + attention(attention_norm(x), ...)`; `out = h + feed_forward(ffn_norm(h))`.
The attention module is Attention_LoRA when args.use_lora else Attention
(src lines 445-448); generation runs in eval mode, so the LoRA dropout is the
identity. -/
noncomputable def TransformerBlock_forward (args : ModelArgs) (lw : LayerWeights)
    (x : List Vec) (start_pos : ℕ) (freqs : List (ℕ → ℂ))
    (mask : Option (ℕ → ℕ → EReal)) (incr : Option (Option LayerCache)) :
    Option (List Vec × Option LayerCache) :=
  let xn := x.map (RMSNorm_forward args.dim args.norm_eps lw.attention_norm)
  match (if args.use_lora then
           Attention_LoRA_forward args lw.attention (fun v => v) xn start_pos freqs mask incr
         else
           Attention_forward args lw.attention xn start_pos freqs mask incr) with
  | none => none
  | some ad =>
    let h := List.zipWith (fun a b => fun i => a i + b i) x ad.1
    let ffn := (h.map (RMSNorm_forward args.dim args.norm_eps lw.ffn_norm)).map
      (FeedForward_forward args.dim (FeedForward_init_hidden (4 * args.dim) args.multiple_of)
        lw.w1 lw.w2 lw.w3)
    some (List.zipWith (fun a b => fun i => a i + b i) h ffn, ad.2)

/-- The whole-model incremental-state dict `Dict[int, Dict[str, Tensor]]`:
layer index ↦ nothing (key absent) or a per-layer dict (which itself may still
be the empty dict `{}`, i.e. `none`). -/
def CacheMap : Type := ℕ → Option (Option LayerCache)

def emptyCacheMap : CacheMap := fun _ => none

def cmUpdate (m : CacheMap) (i : ℕ) (d : Option LayerCache) : CacheMap :=
  fun j => if j = i then some d else m j

/-- Reading layer i of the whole-model dict the way the loop does
(`if i not in incremental_state: incremental_state[i] = {}` then index). -/
def cacheKV (o : Option (Option LayerCache)) : List Vec × List Vec :=
  interpCache (o.getD none)

/-- The layer loop of LLAMA.forward_generate (src lines 546-549). When
incremental_state is None, the membership test `i not in incremental_state`
raises TypeError as soon as the body runs once (`none` here); with zero layers
the loop body never runs and the call proceeds. -/
noncomputable def runLayers (args : ModelArgs) (start_pos : ℕ) (freqs : List (ℕ → ℂ))
    (mask : Option (ℕ → ℕ → EReal)) :
    List LayerWeights → ℕ → Option CacheMap → List Vec → Option (List Vec × Option CacheMap)
  | [], _, incrOpt, h => some (h, incrOpt)
  | lw :: rest, i, incrOpt, h =>
    match incrOpt with
    | none => none
    | some m =>
      match TransformerBlock_forward args lw h start_pos freqs mask (some ((m i).getD none)) with
      | none => none
      | some hd => runLayers args start_pos freqs mask rest (i + 1)
          (some (cmUpdate m i hd.2)) hd.1

/-- Learned tensors of the whole model (src lines 480-502). LLAMA.__init__
builds exactly params.n_layers TransformerBlocks, so the layer list stands for
both self.layers and the loop bound self.n_layers. -/
structure LLAMAWeights where
  tok_embeddings : ℕ → Vec
  layers : List LayerWeights
  norm : Vec
  output : Mat

/-- The prefix-assembly and position-advance prologue of LLAMA.forward_generate
(src lines 513-535): returns the embedded chunk actually fed to the layers and
the internal start position used for the rotary slice. -/
def assembleStep (emb : ℕ → Vec) (tokens : List ℕ) (start_pos : ℕ)
    (audio_out : Option (List Vec)) (left_prompts : Option (List ℕ)) : List Vec × ℕ :=
  match audio_out with
  | some a =>
    if start_pos = 0 then
      match left_prompts with
      | some lp => (lp.map emb ++ a ++ tokens.map emb, start_pos)
      | none => (a ++ tokens.map emb, start_pos)
    else
      match left_prompts with
      | some lp => ((tokens.drop (tokens.length - 1)).map emb,
          start_pos + lp.length + a.length)
      | none => ((tokens.drop (tokens.length - 1)).map emb, start_pos + a.length)
  | none =>
    if start_pos = 0 then (tokens.map emb, start_pos)
    else ((tokens.drop (tokens.length - 1)).map emb, start_pos)

/-- The final norm and output projection (src lines 551-553). -/
noncomputable def outProj (args : ModelArgs) (W : LLAMAWeights) (v : Vec) : Vec :=
  matVec W.output args.dim (RMSNorm_forward args.dim args.norm_eps W.norm v)

/-- LLAMA.forward_generate (src lines 511-554). Returns the logits for the
processed positions and the updated incremental state; `none` is a raised
exception (rotary-table shape assert, or iterating with incremental_state=None). -/
noncomputable def LLAMA_forward_generate (args : ModelArgs) (W : LLAMAWeights)
    (prev_output_tokens : List ℕ) (start_pos : ℕ) (audio_out : Option (List Vec))
    (left_prompts : Option (List ℕ)) (incremental_state : Option CacheMap) :
    Option (List Vec × Option CacheMap) :=
  let hp := assembleStep W.tok_embeddings prev_output_tokens start_pos audio_out left_prompts
  let seqlen := hp.1.length
  let freqs := pythonSlice (precompute_freqs_cis (head_dim args) (args.max_seq_len * 2) 10000)
    hp.2 (hp.2 + seqlen)
  let mask : Option (ℕ → ℕ → EReal) := if 1 < seqlen then some (causal_mask hp.2) else none
  match runLayers args hp.2 freqs mask W.layers 0 incremental_state hp.1 with
  | none => none
  | some hs => some (hs.1.map (outProj args W), hs.2)

/-- The layer loop of the full-sequence path: all layers run with no incremental
state at all (attention gets incremental_state=None). -/
noncomputable def runLayersFull (args : ModelArgs) (start_pos : ℕ) (freqs : List (ℕ → ℂ))
    (mask : Option (ℕ → ℕ → EReal)) : List LayerWeights → List Vec → Option (List Vec)
  | [], h => some h
  | lw :: rest, h =>
    match TransformerBlock_forward args lw h start_pos freqs mask none with
    | none => none
    | some hd => runLayersFull args start_pos freqs mask rest hd.1

/-- Modelled from the spec: class LLAMA defines no full-sequence `forward` method
in src/mtllm/models/llama.py, although LLaMADecoder.forward (src lines 94-95)
invokes it; spec section 4.7 describes the missing entry point: embed the whole
token sequence, rotary slice [0, seq_len), strictly-upper-triangular -inf causal
mask of shape (seq_len, seq_len), run all layers with no cache, return logits for
every position. -/
noncomputable def LLAMA_forward (args : ModelArgs) (W : LLAMAWeights) (tokens : List ℕ) :
    Option (List Vec) :=
  let h := tokens.map W.tok_embeddings
  let freqs := pythonSlice (precompute_freqs_cis (head_dim args) (args.max_seq_len * 2) 10000)
    0 h.length
  match runLayersFull args 0 freqs (some (causal_mask 0)) W.layers h with
  | none => none
  | some h2 => some (h2.map (outProj args W))

/-- One call into LLAMA.forward_generate as issued by a generation session. -/
structure GenCall where
  tokens : List ℕ
  start_pos : ℕ
  audio_out : Option (List Vec)
  left_prompts : Option (List ℕ)

/-- A generation session: a sequence of forward_generate calls threading one
shared incremental-state dict; `none` if any call raises. -/
noncomputable def runCalls (args : ModelArgs) (W : LLAMAWeights) :
    List GenCall → CacheMap → Option CacheMap
  | [], m => some m
  | c :: rest, m =>
    match LLAMA_forward_generate args W c.tokens c.start_pos c.audio_out c.left_prompts
        (some m) with
    | some r =>
      match r.2 with
      | some m2 => runCalls args W rest m2
      | none => none
    | none => none

/-- The call list of the core refinement law: call j+1 passes the running token
history take (j+1) at caller position j, with no audio and no left prompt. -/
def c1Calls (tokens : List ℕ) (k : ℕ) : List GenCall :=
  (List.range k).map fun j => ⟨tokens.take (j + 1), j, none, none⟩

/-- Incremental-state dict after priming plus streaming through position k-1. -/
noncomputable def incrementalState (args : ModelArgs) (W : LLAMAWeights)
    (tokens : List ℕ) (k : ℕ) : Option CacheMap :=
  runCalls args W (c1Calls tokens k) emptyCacheMap

/-- Logits produced by the k-th incremental call (k ≥ 1), i.e. for position k-1. -/
noncomputable def incrementalLogits (args : ModelArgs) (W : LLAMAWeights)
    (tokens : List ℕ) (k : ℕ) : Option (List Vec) :=
  (incrementalState args W tokens (k - 1)).bind fun m =>
    (LLAMA_forward_generate args W (tokens.take k) (k - 1) none none (some m)).map
      Prod.fst

/-- The hidden state after the first i layers within incremental call k+1
(processing position k): the call prologue of forward_generate followed by the
layer loop truncated to the first i layers. -/
noncomputable def generateHidden (args : ModelArgs) (W : LLAMAWeights)
    (tokens : List ℕ) (k i : ℕ) : Option (List Vec) :=
  (incrementalState args W tokens k).bind fun m =>
    let hp := assembleStep W.tok_embeddings (tokens.take (k + 1)) k none none
    let seqlen := hp.1.length
    let freqs := pythonSlice (precompute_freqs_cis (head_dim args) (args.max_seq_len * 2) 10000)
      hp.2 (hp.2 + seqlen)
    let mask : Option (ℕ → ℕ → EReal) := if 1 < seqlen then some (causal_mask hp.2) else none
    (runLayers args hp.2 freqs mask (W.layers.take i) 0 (some m) hp.1).map Prod.fst

/-- The hidden state after the first i layers of the full-sequence path. -/
noncomputable def fullHidden (args : ModelArgs) (W : LLAMAWeights)
    (tokens : List ℕ) (i : ℕ) : Option (List Vec) :=
  let h := tokens.map W.tok_embeddings
  let freqs := pythonSlice (precompute_freqs_cis (head_dim args) (args.max_seq_len * 2) 10000)
    0 h.length
  runLayersFull args 0 freqs (some (causal_mask 0)) (W.layers.take i) h

/-- Shape of a torch Linear module (out_features, in_features) as constructed. -/
structure LinearShape where
  in_features : ℕ
  out_features : ℕ

/-- Shapes produced by Attention_LoRA.__init__ / Attention.__init__. -/
structure AttentionInitShapes where
  n_local_heads : ℕ
  head_dim : ℕ
  wq : LinearShape
  wk : LinearShape
  wv : LinearShape
  wo : LinearShape

/-- The shape computation of Attention_LoRA.__init__ (src lines 176-213) and
Attention.__init__ (src lines 303-328): `head_dim = dim // n_heads` (floor), the
four Linears built unconditionally; there is no divisibility check and no raise
anywhere in the constructor, so construction is a total function. -/
def Attention_LoRA_init (dim n_heads : ℕ) : AttentionInitShapes :=
  { n_local_heads := n_heads
    head_dim := dim / n_heads
    wq := ⟨dim, n_heads * (dim / n_heads)⟩
    wk := ⟨dim, n_heads * (dim / n_heads)⟩
    wv := ⟨dim, n_heads * (dim / n_heads)⟩
    wo := ⟨n_heads * (dim / n_heads), dim⟩ }

/-- TransformerBlock.__init__ head_dim (src line 443): also an unchecked floor. -/
def TransformerBlock_init_head_dim (dim n_heads : ℕ) : ℕ := dim / n_heads

/- Concrete all-zero weights used by the closed witness statements. -/

def zeroVec : Vec := fun _ => 0

def zeroMat : Mat := fun _ _ => 0

def zeroAttnWeights : AttentionWeights :=
  ⟨zeroMat, zeroMat, zeroMat, zeroMat, zeroMat, zeroMat, zeroMat, zeroMat,
   zeroMat, zeroMat, zeroMat, zeroMat, 0⟩

def zeroLayer : LayerWeights := ⟨zeroAttnWeights, zeroMat, zeroMat, zeroMat, zeroVec, zeroVec⟩

def zeroWeights : LLAMAWeights := ⟨fun _ => zeroVec, [zeroLayer], zeroVec, zeroMat⟩

def argsTiny : ModelArgs :=
  { dim := 1, n_layers := 1, n_heads := 1, vocab_size := 3, multiple_of := 1,
    norm_eps := 0, max_seq_len := 1, use_lora := true, lora_r := 1, lora_alpha := 0,
    lora_dropout := 0, flash_attention := false }

def audio4 : List Vec := List.replicate 4 zeroVec

/- Arithmetic and list helper lemmas. -/

lemma nat_ceil_div (a b : ℕ) (hb : 0 < b) :
    ⌈(a : ℚ) / (b : ℚ)⌉₊ = (a + b - 1) / b := by
  rcases Nat.eq_zero_or_pos a with ha | ha
  · subst ha
    have h0 : (b - 1) / b = 0 := Nat.div_eq_of_lt (by omega)
    simp [h0]
  · have hbq : (0 : ℚ) < (b : ℚ) := by exact_mod_cast hb
    have hrw : a + b - 1 = (a - 1) + b := by omega
    have hq : (a + b - 1) / b = (a - 1) / b + 1 := by
      rw [hrw, Nat.add_div_right _ hb]
    have hgen : ∀ q r, b * q + r = a - 1 → r < b → a ≤ (q + 1) * b := by
      intro q r hdm hr
      have hmul : (q + 1) * b = b * q + b := by ring
      rw [hmul]
      generalize b * q = p at hdm ⊢
      omega
    have hmain : a ≤ ((a - 1) / b + 1) * b :=
      hgen _ _ (Nat.div_add_mod _ _) (Nat.mod_lt _ hb)
    apply le_antisymm
    · apply Nat.ceil_le.mpr
      rw [div_le_iff hbq, hq]
      exact_mod_cast hmain
    · have hle : (a : ℚ) / (b : ℚ) ≤ (⌈(a : ℚ) / (b : ℚ)⌉₊ : ℚ) := Nat.le_ceil _
      rw [div_le_iff hbq] at hle
      have h4 : a ≤ ⌈(a : ℚ) / (b : ℚ)⌉₊ * b := by exact_mod_cast hle
      have h5 : (a - 1) / b < ⌈(a : ℚ) / (b : ℚ)⌉₊ :=
        (Nat.div_lt_iff_lt_mul hb).mpr (lt_of_lt_of_le (by omega) h4)
      rw [hq]
      generalize (a - 1) / b = m at h5 ⊢
      omega

lemma drop_pred_length {α : Type} (l : List α) (d : α) (h : l ≠ []) :
    l.drop (l.length - 1) = [l.getD (l.length - 1) d] := by
  have hlen : 0 < l.length := List.length_pos.mpr h
  have h1 : l.length - 1 < l.length := by omega
  rw [List.drop_eq_getElem_cons h1]
  have h2 : l.length - 1 + 1 = l.length := by omega
  rw [h2, List.drop_length, List.getD_eq_getElem l d h1]

lemma pythonSlice_len {α : Type} (l : List α) (a n : ℕ) :
    (pythonSlice l a (a + n)).length = min n (l.length - a) := by
  simp [pythonSlice]

/- C2: truncation to the last token and internal position advance on
streaming calls (start_pos > 0). -/

/-- C2 counterexample: with no audio but a present left prompt of length 1 at
caller position 1, the internal start position stays 1, not
1 + left-prompt-length + audio-length = 2 as the claim's formula requires: the
code only advances the position on the audio path. -/
theorem c2_counterexample :
    ¬ ((assembleStep (fun _ => zeroVec) [5, 6] 1 none (some [7])).2 = 1 + (1 + 0)) := by
  decide

/-- C2 (amended): on every streaming call (start_pos > 0, nonempty token
history) exactly the last token is embedded; the internal start position is the
caller's start_pos plus, when an audio embedding is present, the left-prompt
length (0 when absent) plus the audio length, and is unchanged when no audio is
present (the no-audio path ignores a left prompt just as priming does); under
the table bound the rotary slice is then exactly one position wide at that
advanced position. -/
theorem c2_streaming_step (emb : ℕ → Vec) (tokens : List ℕ) (start_pos : ℕ)
    (audio_out : Option (List Vec)) (left_prompts : Option (List ℕ)) (args : ModelArgs)
    (hsp : start_pos ≠ 0) (htok : tokens ≠ []) :
    (assembleStep emb tokens start_pos audio_out left_prompts).1 =
      [emb (tokens.getD (tokens.length - 1) 0)] ∧
    (assembleStep emb tokens start_pos audio_out left_prompts).2 =
      start_pos + (match audio_out with
        | none => 0
        | some a => (match left_prompts with | none => 0 | some lp => lp.length) + a.length) ∧
    ((assembleStep emb tokens start_pos audio_out left_prompts).2 + 1 ≤ args.max_seq_len * 2 →
      (pythonSlice (precompute_freqs_cis (head_dim args) (args.max_seq_len * 2) 10000)
        (assembleStep emb tokens start_pos audio_out left_prompts).2
        ((assembleStep emb tokens start_pos audio_out left_prompts).2 + 1)).length = 1) := by
  have hdrop : (tokens.drop (tokens.length - 1)).map emb =
      [emb (tokens.getD (tokens.length - 1) 0)] := by
    rw [drop_pred_length tokens 0 htok]; rfl
  have hslice : ∀ s : ℕ, s + 1 ≤ args.max_seq_len * 2 →
      (pythonSlice (precompute_freqs_cis (head_dim args) (args.max_seq_len * 2) 10000)
        s (s + 1)).length = 1 := by
    intro s hs
    rw [pythonSlice_len]
    simp only [precompute_freqs_cis, List.length_map, List.length_range]
    omega
  rcases audio_out with _ | a <;> rcases left_prompts with _ | lp <;>
    simp only [assembleStep, if_neg hsp] <;>
    exact ⟨hdrop, by omega, fun hle => hslice _ hle⟩

/-- C2 witness: a concrete streaming call with audio present. -/
theorem c2_witness :
    (1 : ℕ) ≠ 0 ∧ ([5, 6] : List ℕ) ≠ [] ∧
    (assembleStep (fun _ => zeroVec) [5, 6] 1 (some audio4) none).1 =
      [(fun _ => zeroVec : ℕ → Vec) 6] ∧
    (assembleStep (fun _ => zeroVec) [5, 6] 1 (some audio4) none).2 = 1 + (0 + 4) := by
  have h := c2_streaming_step (fun _ => zeroVec) [5, 6] 1 (some audio4) none argsTiny
    (by decide) (by simp)
  exact ⟨by decide, by simp, h.1, by rw [h.2.1]; simp [audio4]⟩

/- C3: the concrete position-advance scenario. -/

/-- C3 counterexample: priming used audio length 4, no left prompt, text tokens
[5, 6]; on the next call (caller position 2) the internal start position is
6 = 2 + 4, not 4 as the claim states. -/
theorem c3_counterexample :
    (assembleStep (fun _ => zeroVec) [5, 6] 2 (some audio4) none).2 = 6 ∧
    ¬ ((assembleStep (fun _ => zeroVec) [5, 6] 2 (some audio4) none).2 = 4) := by
  constructor <;> simp [assembleStep, audio4]

/-- C3 (amended): in that scenario the internal start position advances to
6 (the caller's counter 2 plus the audio length 4), and only the newest token
(id 6) is embedded. -/
theorem c3_position_advance (emb : ℕ → Vec) (a : List Vec) (ha : a.length = 4) :
    (assembleStep emb [5, 6] 2 (some a) none).2 = 6 ∧
    (assembleStep emb [5, 6] 2 (some a) none).1 = [emb 6] := by
  constructor
  · simp [assembleStep, ha]
  · simp [assembleStep]

/-- C3 witness. -/
theorem c3_witness :
    audio4.length = 4 ∧
    (assembleStep (fun _ => zeroVec) [5, 6] 2 (some audio4) none).2 = 6 :=
  ⟨by simp [audio4], (c3_position_advance (fun _ => zeroVec) audio4 (by simp [audio4])).1⟩

/- C5: there is no construction-time divisibility check. -/

/-- C5 counterexample: dim = 5, n_heads = 2 is not divisible, yet construction
succeeds (no ShapeMismatch is raised anywhere in the constructors): it returns
head_dim = 2 and silently builds projections of width 4 ≠ 5. -/
theorem c5_counterexample :
    ¬ (2 ∣ 5) ∧ (Attention_LoRA_init 5 2).head_dim = 2 ∧
    (Attention_LoRA_init 5 2).wq.out_features = 4 ∧
    ¬ ((Attention_LoRA_init 5 2).wq.out_features = 5) := by
  decide

/-- C5 (amended): construction never fails; head_dim is always the floor
dim / n_heads; exactly for divisible configurations head_dim * n_heads = dim and
the projection widths equal dim (for non-divisible ones the model is silently
built with the reduced inner width n_heads * (dim / n_heads)). -/
theorem c5_head_dim_floor (dim n_heads : ℕ) :
    (Attention_LoRA_init dim n_heads).head_dim = dim / n_heads ∧
    TransformerBlock_init_head_dim dim n_heads = dim / n_heads ∧
    (n_heads ∣ dim →
      (Attention_LoRA_init dim n_heads).head_dim * n_heads = dim ∧
      (Attention_LoRA_init dim n_heads).wq.out_features = dim) := by
  refine ⟨rfl, rfl, fun h => ⟨Nat.div_mul_cancel h, Nat.mul_div_cancel' h⟩⟩

/-- C5 witness: the divisible configuration dim = 8, n_heads = 2. -/
theorem c5_witness :
    (2 ∣ 8) ∧ (Attention_LoRA_init 8 2).head_dim * 2 = 8 ∧
    (Attention_LoRA_init 8 2).wq.out_features = 8 :=
  ⟨by decide, ((c5_head_dim_floor 8 2).2.2 (by decide)).1,
    ((c5_head_dim_floor 8 2).2.2 (by decide)).2⟩

/- C9: the feed-forward hidden width formula. -/

/-- C9 counterexample: at dim = 1, multiple_of = 2 the code computes
2 * ceil(floor(8/3) / 2) = 2, while the claimed formula
multiple_of * ceil((2/3 * 4 * dim) / multiple_of) gives 2 * ceil(4/3) = 4: the
code truncates 2*hidden/3 to an integer before rounding up. -/
theorem c9_counterexample :
    FeedForward_init_hidden (4 * 1) 2 = 2 ∧
    ¬ (FeedForward_init_hidden (4 * 1) 2 = 2 * ⌈((2 : ℚ) / 3 * (4 * 1)) / 2⌉₊) := by
  constructor
  · decide
  · intro h
    rw [show ((2 : ℚ) / 3 * (4 * 1)) / 2 = 4 / 3 by norm_num] at h
    rw [show ⌈(4 : ℚ) / 3⌉₊ = 2 by rw [Nat.ceil_eq_iff (by norm_num)]; norm_num] at h
    simp [FeedForward_init_hidden] at h

/-- C9 (amended): the hidden width of the three feed-forward projections is
multiple_of * ceil(floor(2/3 * 4 * dim) / multiple_of) — the spec formula with
the integer truncation int(2*hidden/3) applied before the round-up. -/
theorem c9_hidden_width (dim multiple_of : ℕ) (hm : 0 < multiple_of) :
    FeedForward_init_hidden (4 * dim) multiple_of =
      multiple_of * ⌈((2 * (4 * dim) / 3 : ℕ) : ℚ) / (multiple_of : ℚ)⌉₊ := by
  unfold FeedForward_init_hidden
  rw [nat_ceil_div _ _ hm]

/-- C9 witness: the default configuration dim = 4096, multiple_of = 256. -/
theorem c9_witness :
    (0 : ℕ) < 256 ∧
    FeedForward_init_hidden (4 * 4096) 256 =
      256 * ⌈((2 * (4 * 4096) / 3 : ℕ) : ℚ) / (256 : ℚ)⌉₊ :=
  ⟨by decide, c9_hidden_width 4096 256 (by decide)⟩

/- C10: forward_generate with incremental_state = None. -/

/-- C10: calling forward_generate with incremental_state left at its default
None raises before any logits are produced (the loop membership test
`i not in incremental_state` is a TypeError on None), for every input, as soon
as the model has at least one layer. -/
theorem c10_none_state_raises (args : ModelArgs) (W : LLAMAWeights)
    (tokens : List ℕ) (start_pos : ℕ) (audio_out : Option (List Vec))
    (left_prompts : Option (List ℕ)) (hlayers : W.layers ≠ []) :
    LLAMA_forward_generate args W tokens start_pos audio_out left_prompts none = none := by
  cases hL : W.layers with
  | nil => exact absurd hL hlayers
  | cons lw rest => simp [LLAMA_forward_generate, hL, runLayers]

/-- C10 witness. -/
theorem c10_witness :
    zeroWeights.layers ≠ [] ∧
    LLAMA_forward_generate argsTiny zeroWeights [0] 0 none none none = none :=
  ⟨by simp [zeroWeights],
    c10_none_state_raises argsTiny zeroWeights [0] 0 none none (by simp [zeroWeights])⟩

/- C8: reorder_incremental_state_scripting (src lines 556-564). -/

/-- Mapping a fallible function over a list, failing as soon as one element
fails (the effect of a Python for-loop whose body may raise). -/
def optionMapList {α β : Type} (f : α → Option β) : List α → Option (List β)
  | [] => some []
  | a :: t =>
    match f a, optionMapList f t with
    | some b, some bs => some (b :: bs)
    | _, _ => none

/-- `tensor.index_select(0, new_order)`: gather the batch rows listed in
new_order; an out-of-range row is a raised IndexError (`none`). -/
def index_select0 {α : Type} (t : List α) (new_order : List ℕ) : Option (List α) :=
  optionMapList (fun i => t.get? i) new_order

/-- LLAMA.reorder_incremental_state_scripting (src lines 556-564): for every
layer dict and every entry in it, a present tensor is replaced by its
index_select along the batch axis and a None entry is left untouched. The
nested dicts are modeled as nested lists (iteration order); tensors as lists of
batch rows. -/
def reorder_incremental_state_scripting {α : Type}
    (incremental_state : List (List (Option (List α)))) (new_order : List ℕ) :
    Option (List (List (Option (List α)))) :=
  optionMapList (fun layer => optionMapList (fun e =>
    match e with
    | none => some none
    | some t => (index_select0 t new_order).map some) layer) incremental_state

lemma optionMapList_map {α β γ : Type} (g : α → β) (f : β → Option γ) (l : List α) :
    optionMapList f (l.map g) = optionMapList (fun a => f (g a)) l := by
  induction l with
  | nil => rfl
  | cons a t ih => simp only [List.map_cons, optionMapList, ih]

lemma range_optionMapList_get? {α : Type} (t : List α) :
    optionMapList (fun i => t.get? i) (List.range t.length) = some t := by
  induction t with
  | nil => rfl
  | cons a t ih =>
    rw [List.length_cons, List.range_succ_eq_map, optionMapList, optionMapList_map]
    simp only [List.get?_cons_succ, List.get?_cons_zero, ih]

lemma optionMapList_id_of_fixed {α : Type} (f : α → Option α) :
    ∀ l : List α, (∀ a ∈ l, f a = some a) → optionMapList f l = some l := by
  intro l
  induction l with
  | nil => intro _; rfl
  | cons a t ih =>
    intro h
    rw [optionMapList, h a (by simp), ih (fun x hx => h x (by simp [hx]))]

lemma optionMapList_some_get {α β : Type} (f : α → Option β) :
    ∀ (l : List α) (out : List β), optionMapList f l = some out →
      out.length = l.length ∧
      ∀ i a, l.get? i = some a → ∃ b, f a = some b ∧ out.get? i = some b := by
  intro l
  induction l with
  | nil =>
    intro out h
    simp only [optionMapList, Option.some.injEq] at h
    subst h
    exact ⟨rfl, by intro i a ha; simp at ha⟩
  | cons a t ih =>
    intro out h
    rw [optionMapList] at h
    cases hfa : f a with
    | none => rw [hfa] at h; simp at h
    | some b =>
      rw [hfa] at h
      cases hmt : optionMapList f t with
      | none => rw [hmt] at h; simp at h
      | some bs =>
        rw [hmt] at h
        simp only [Option.some.injEq] at h
        subst h
        obtain ⟨hlen, hget⟩ := ih bs hmt
        refine ⟨by simp [hlen], ?_⟩
        intro i x hx
        cases i with
        | zero =>
          simp only [List.get?_cons_zero, Option.some.injEq] at hx
          subst hx
          exact ⟨b, hfa, rfl⟩
        | succ n =>
          simp only [List.get?_cons_succ] at hx ⊢
          exact hget n x hx

/-- C8: applying the reorder hook with the identity permutation (under the
session invariant that every cached tensor has the shared batch size B) returns
every cached tensor unchanged, and under every permutation a None cache entry
stays None. -/
theorem c8_reorder_identity_and_none {α : Type}
    (incr : List (List (Option (List α)))) (B : ℕ)
    (hB : ∀ layer ∈ incr, ∀ e ∈ layer, ∀ t, e = some t → t.length = B) :
    reorder_incremental_state_scripting incr (List.range B) = some incr ∧
    ∀ (new_order : List ℕ) (out : List (List (Option (List α)))),
      reorder_incremental_state_scripting incr new_order = some out →
      ∀ i j, (incr.get? i).bind (fun layer => layer.get? j) = some none →
        (out.get? i).bind (fun layer => layer.get? j) = some none := by
  constructor
  · apply optionMapList_id_of_fixed
    intro layer hlayer
    apply optionMapList_id_of_fixed
    intro e he
    cases e with
    | none => rfl
    | some t =>
      have ht : t.length = B := hB layer hlayer (some t) he t rfl
      simp only [index_select0, ← ht, range_optionMapList_get?, Option.map_some']
  · intro new_order out hout i j hnone
    cases hli : incr.get? i with
    | none => rw [hli] at hnone; simp at hnone
    | some layer =>
      rw [hli] at hnone
      simp only [Option.some_bind] at hnone
      obtain ⟨_, hget⟩ := optionMapList_some_get _ incr out hout
      obtain ⟨layer2, hl2, hout_i⟩ := hget i layer hli
      obtain ⟨_, hget2⟩ := optionMapList_some_get _ layer layer2 hl2
      obtain ⟨e2, he2, hl2j⟩ := hget2 j none hnone
      rw [hout_i]
      simp only [Option.some_bind, hl2j]
      simpa using he2.symm

/-- C8 witness: one layer dict holding a present tensor of batch size 2 and a
None entry; the identity permutation range 2 returns it unchanged. -/
theorem c8_witness :
    (∀ layer ∈ ([[some [10, 20], none]] : List (List (Option (List ℕ)))),
      ∀ e ∈ layer, ∀ t, e = some t → t.length = 2) ∧
    reorder_incremental_state_scripting ([[some [10, 20], none]] : List (List (Option (List ℕ))))
      (List.range 2) = some [[some [10, 20], none]] := by
  have hB : ∀ layer ∈ ([[some [10, 20], none]] : List (List (Option (List ℕ)))),
      ∀ e ∈ layer, ∀ t, e = some t → t.length = 2 := by
    intro layer hlayer e he t ht
    simp only [List.mem_singleton] at hlayer
    subst hlayer
    rcases he with _ | ⟨_, he⟩
    · cases ht; rfl
    · rcases he with _ | ⟨_, he⟩
      · cases ht
      · cases he
  exact ⟨hB, (c8_reorder_identity_and_none [[some [10, 20], none]] 2 hB).1⟩

/- C6: zero-initialized LoRA adapters are a no-op. -/

lemma lora_linear_zero_B (n_in n_lora r : ℕ) (W A : Mat) (scaling : ℝ) (drop : Vec → Vec) :
    lora_linear n_in n_lora r W A (fun _ _ => 0) scaling drop = matVec W n_in := by
  funext v i
  simp [lora_linear]

/-- C6: every LoRA-adapted projection computes base + dropout(x)·A·B·(alpha/r)
(definition lora_linear, src lines 249-251 and 299), and straight after
reset_parameters — which zero-initializes every B factor (src lines 233-236) —
the whole LoRA attention forward equals the plain (non-adapted) attention
forward on the same base weights, for every input, cache state, mask and
dropout function. -/
theorem c6_lora_zero_init_matches_base (args : ModelArgs) (w : AttentionWeights)
    (aq ak av ao : Mat) (drop : Vec → Vec) (x : List Vec) (start_pos : ℕ)
    (freqs : List (ℕ → ℂ)) (mask : Option (ℕ → ℕ → EReal))
    (incr : Option (Option LayerCache)) :
    Attention_LoRA_forward args (Attention_LoRA_reset_parameters w aq ak av ao) drop
        x start_pos freqs mask incr =
      Attention_forward args (Attention_LoRA_reset_parameters w aq ak av ao)
        x start_pos freqs mask incr := by
  simp only [Attention_LoRA_forward, Attention_forward, Attention_LoRA_reset_parameters,
    lora_linear_zero_B]

/- C7: requesting a rotary slice beyond the precomputed table is a hard error. -/

lemma attnGeneric_len_mismatch (D : ℕ) (pq pk pv po : Vec → Vec) (x : List Vec)
    (sp : ℕ) (freqs : List (ℕ → ℂ)) (mask : Option (ℕ → ℕ → EReal))
    (incr : Option (Option LayerCache)) (hne : freqs.length ≠ x.length) :
    attnGeneric D pq pk pv po x sp freqs mask incr = none := by
  have hok : reshape_for_broadcast_ok freqs x.length = false := by
    simp [reshape_for_broadcast_ok, hne]
  simp [attnGeneric, apply_rotary_emb, hok]

lemma TransformerBlock_len_mismatch (args : ModelArgs) (lw : LayerWeights)
    (x : List Vec) (sp : ℕ) (freqs : List (ℕ → ℂ)) (mask : Option (ℕ → ℕ → EReal))
    (incr : Option (Option LayerCache)) (hne : freqs.length ≠ x.length) :
    TransformerBlock_forward args lw x sp freqs mask incr = none := by
  have hx : freqs.length ≠
      (x.map (RMSNorm_forward args.dim args.norm_eps lw.attention_norm)).length := by
    simpa using hne
  simp only [TransformerBlock_forward]
  cases hu : args.use_lora <;>
    simp [Attention_LoRA_forward, Attention_forward,
      attnGeneric_len_mismatch _ _ _ _ _ _ _ _ _ _ hx]

/-- C7: whenever the rotary slice requested by forward_generate would extend
past the table (internal start position + chunk length exceeds the
max_seq_len * 2 precomputed positions), the Python slice silently comes back
short, the shape assert inside reshape_for_broadcast fires on the very first
layer, and the whole call is a hard error — it never proceeds with a shorter
slice. -/
theorem c7_rotary_slice_beyond_table (args : ModelArgs) (W : LLAMAWeights)
    (tokens : List ℕ) (start_pos : ℕ) (audio_out : Option (List Vec))
    (left_prompts : Option (List ℕ)) (m : CacheMap)
    (hlayers : W.layers ≠ [])
    (hseq : 1 ≤ (assembleStep W.tok_embeddings tokens start_pos audio_out left_prompts).1.length)
    (hover : args.max_seq_len * 2 <
      (assembleStep W.tok_embeddings tokens start_pos audio_out left_prompts).2 +
        (assembleStep W.tok_embeddings tokens start_pos audio_out left_prompts).1.length) :
    LLAMA_forward_generate args W tokens start_pos audio_out left_prompts (some m) = none := by
  cases hL : W.layers with
  | nil => exact absurd hL hlayers
  | cons lw rest =>
    have hne : (pythonSlice (precompute_freqs_cis (head_dim args) (args.max_seq_len * 2) 10000)
        (assembleStep W.tok_embeddings tokens start_pos audio_out left_prompts).2
        ((assembleStep W.tok_embeddings tokens start_pos audio_out left_prompts).2 +
          (assembleStep W.tok_embeddings tokens start_pos audio_out left_prompts).1.length)).length ≠
        (assembleStep W.tok_embeddings tokens start_pos audio_out left_prompts).1.length := by
      rw [pythonSlice_len]
      simp only [precompute_freqs_cis, List.length_map, List.length_range]
      omega
    simp only [LLAMA_forward_generate, hL, runLayers,
      TransformerBlock_len_mismatch _ _ _ _ _ _ _ hne]

/-- C7 witness: a single-token streaming call at internal position 3 against a
table of 2 positions. -/
theorem c7_witness :
    zeroWeights.layers ≠ [] ∧
    (1 ≤ (assembleStep zeroWeights.tok_embeddings [0] 3 none none).1.length) ∧
    (argsTiny.max_seq_len * 2 <
      (assembleStep zeroWeights.tok_embeddings [0] 3 none none).2 +
        (assembleStep zeroWeights.tok_embeddings [0] 3 none none).1.length) ∧
    LLAMA_forward_generate argsTiny zeroWeights [0] 3 none none (some emptyCacheMap) = none := by
  refine ⟨by simp [zeroWeights], by decide, by decide, ?_⟩
  exact c7_rotary_slice_beyond_table argsTiny zeroWeights [0] 3 none none emptyCacheMap
    (by simp [zeroWeights]) (by decide) (by decide)

/- C4: cache growth bookkeeping. -/

lemma attnOut_length (D : ℕ) (qs ks vs : List Vec) (mask : Option (ℕ → ℕ → EReal)) :
    (attnOut D qs ks vs mask).length = qs.length := by
  simp [attnOut]

/-- Success form of the shared attention body when an incremental dict is
passed and the rotary slice has the right length. -/
lemma attnGeneric_some (D : ℕ) (pq pk pv po : Vec → Vec) (x : List Vec) (sp : ℕ)
    (freqs : List (ℕ → ℂ)) (mask : Option (ℕ → ℕ → EReal)) (d : Option LayerCache)
    (hlen : freqs.length = x.length) :
    attnGeneric D pq pk pv po x sp freqs mask (some d) =
      some ((attnOut D (List.zipWith (apply_rotary_one D) freqs (x.map pq))
              ((interpCache d).1 ++ List.zipWith (apply_rotary_one D) freqs (x.map pk))
              ((interpCache d).2 ++ x.map pv) mask).map po,
            some ⟨(interpCache d).1 ++ List.zipWith (apply_rotary_one D) freqs (x.map pk),
                  (interpCache d).2 ++ x.map pv⟩) := by
  have hok : reshape_for_broadcast_ok freqs x.length = true := by
    simp [reshape_for_broadcast_ok, hlen]
  simp [attnGeneric, apply_rotary_emb, hok]

/-- Success form of the shared attention body with no incremental state. -/
lemma attnGeneric_some_nocache (D : ℕ) (pq pk pv po : Vec → Vec) (x : List Vec) (sp : ℕ)
    (freqs : List (ℕ → ℂ)) (mask : Option (ℕ → ℕ → EReal))
    (hlen : freqs.length = x.length) :
    attnGeneric D pq pk pv po x sp freqs mask none =
      some ((attnOut D (List.zipWith (apply_rotary_one D) freqs (x.map pq))
              (List.zipWith (apply_rotary_one D) freqs (x.map pk))
              (x.map pv) mask).map po, none) := by
  have hok : reshape_for_broadcast_ok freqs x.length = true := by
    simp [reshape_for_broadcast_ok, hlen]
  simp [attnGeneric, apply_rotary_emb, hok]

lemma TransformerBlock_some (args : ModelArgs) (lw : LayerWeights) (x : List Vec)
    (sp : ℕ) (freqs : List (ℕ → ℂ)) (mask : Option (ℕ → ℕ → EReal)) (d : Option LayerCache)
    (hlen : freqs.length = x.length) :
    ∃ out kv, TransformerBlock_forward args lw x sp freqs mask (some d) = some (out, some kv) ∧
      out.length = x.length ∧
      kv.prev_key.length = (interpCache d).1.length + x.length ∧
      kv.prev_value.length = (interpCache d).2.length + x.length := by
  have hlen2 : freqs.length =
      (x.map (RMSNorm_forward args.dim args.norm_eps lw.attention_norm)).length := by
    simpa using hlen
  simp only [TransformerBlock_forward]
  cases hu : args.use_lora <;>
    simp only [Bool.false_eq_true, if_false, if_true, Attention_LoRA_forward,
      Attention_forward] <;>
    rw [attnGeneric_some _ _ _ _ _ _ _ _ _ _ hlen2] <;>
    refine ⟨_, _, rfl, ?_, ?_, ?_⟩ <;>
    simp [attnOut_length, hlen.symm] <;>
    omega

lemma runLayers_len (args : ModelArgs) (sp : ℕ) (freqs : List (ℕ → ℂ))
    (mask : Option (ℕ → ℕ → EReal)) :
    ∀ (ls : List LayerWeights) (i0 : ℕ) (m : CacheMap) (h : List Vec),
    freqs.length = h.length →
    ∃ h2 m2, runLayers args sp freqs mask ls i0 (some m) h = some (h2, some m2) ∧
      h2.length = h.length ∧
      (∀ δ, δ < ls.length → ∃ kv, m2 (i0 + δ) = some (some kv) ∧
        kv.prev_key.length = (cacheKV (m (i0 + δ))).1.length + h.length ∧
        kv.prev_value.length = (cacheKV (m (i0 + δ))).2.length + h.length) ∧
      (∀ j, j < i0 ∨ i0 + ls.length ≤ j → m2 j = m j) := by
  intro ls
  induction ls with
  | nil =>
    intro i0 m h hlen
    exact ⟨h, m, rfl, rfl, by intro δ hδ; simp at hδ, by intro j hj; rfl⟩
  | cons lw rest ih =>
    intro i0 m h hlen
    obtain ⟨out, kv, heq, hout, hk, hv⟩ :=
      TransformerBlock_some args lw h sp freqs mask ((m i0).getD none) hlen
    obtain ⟨h2, m2, hrec, hlen2, hgrow, hsame⟩ :=
      ih (i0 + 1) (cmUpdate m i0 (some kv)) out (hlen.trans hout.symm)
    refine ⟨h2, m2, ?_, hlen2.trans hout, ?_, ?_⟩
    · simp only [runLayers, heq]
      exact hrec
    · intro δ hδ
      cases δ with
      | zero =>
        refine ⟨kv, ?_, ?_, ?_⟩
        · rw [Nat.add_zero, hsame i0 (by omega)]
          simp [cmUpdate]
        · simpa [cacheKV] using hk
        · simpa [cacheKV] using hv
      | succ δ2 =>
        obtain ⟨kv2, hkv2, hk2, hv2⟩ := hgrow δ2 (by simpa using hδ)
        have hidx : i0 + 1 + δ2 = i0 + (δ2 + 1) := by omega
        rw [hidx] at hkv2 hk2 hv2
        have hcm : cacheKV (cmUpdate m i0 (some kv) (i0 + (δ2 + 1))) =
            cacheKV (m (i0 + (δ2 + 1))) := by
          simp only [cmUpdate]
          rw [if_neg (by omega : ¬ (i0 + (δ2 + 1) = i0))]
        exact ⟨kv2, hkv2, by rw [hk2, hcm, hout], by rw [hv2, hcm, hout]⟩
    · intro j hj
      simp only [List.length_cons] at hj
      rw [hsame j (by omega)]
      simp only [cmUpdate]
      rw [if_neg (by omega : ¬ (j = i0))]

lemma forward_generate_len (args : ModelArgs) (W : LLAMAWeights) (c : GenCall)
    (m : CacheMap)
    (hok : (assembleStep W.tok_embeddings c.tokens c.start_pos c.audio_out c.left_prompts).2 +
      (assembleStep W.tok_embeddings c.tokens c.start_pos c.audio_out c.left_prompts).1.length ≤
        args.max_seq_len * 2) :
    ∃ lg m2, LLAMA_forward_generate args W c.tokens c.start_pos c.audio_out c.left_prompts
        (some m) = some (lg, some m2) ∧
      (∀ δ, δ < W.layers.length → ∃ kv, m2 δ = some (some kv) ∧
        kv.prev_key.length = (cacheKV (m δ)).1.length +
          (assembleStep W.tok_embeddings c.tokens c.start_pos c.audio_out c.left_prompts).1.length ∧
        kv.prev_value.length = (cacheKV (m δ)).2.length +
          (assembleStep W.tok_embeddings c.tokens c.start_pos c.audio_out c.left_prompts).1.length) ∧
      (∀ j, W.layers.length ≤ j → m2 j = m j) := by
  have hlen : (pythonSlice (precompute_freqs_cis (head_dim args) (args.max_seq_len * 2) 10000)
      (assembleStep W.tok_embeddings c.tokens c.start_pos c.audio_out c.left_prompts).2
      ((assembleStep W.tok_embeddings c.tokens c.start_pos c.audio_out c.left_prompts).2 +
        (assembleStep W.tok_embeddings c.tokens c.start_pos c.audio_out c.left_prompts).1.length)).length =
      (assembleStep W.tok_embeddings c.tokens c.start_pos c.audio_out c.left_prompts).1.length := by
    rw [pythonSlice_len]
    simp only [precompute_freqs_cis, List.length_map, List.length_range]
    omega
  obtain ⟨h2, m2, hrun, _, hgrow, hsame⟩ :=
    runLayers_len args
      (assembleStep W.tok_embeddings c.tokens c.start_pos c.audio_out c.left_prompts).2
      (pythonSlice (precompute_freqs_cis (head_dim args) (args.max_seq_len * 2) 10000)
        (assembleStep W.tok_embeddings c.tokens c.start_pos c.audio_out c.left_prompts).2
        ((assembleStep W.tok_embeddings c.tokens c.start_pos c.audio_out c.left_prompts).2 +
          (assembleStep W.tok_embeddings c.tokens c.start_pos c.audio_out c.left_prompts).1.length))
      (if 1 < (assembleStep W.tok_embeddings c.tokens c.start_pos c.audio_out c.left_prompts).1.length
        then some (causal_mask
          (assembleStep W.tok_embeddings c.tokens c.start_pos c.audio_out c.left_prompts).2)
        else none)
      W.layers 0 m
      (assembleStep W.tok_embeddings c.tokens c.start_pos c.audio_out c.left_prompts).1 hlen
  refine ⟨h2.map (outProj args W), m2, ?_, by simpa using hgrow, by simpa using hsame⟩
  simp only [LLAMA_forward_generate, hrun]

/-- One streaming call (start_pos > 0, nonempty running history) always feeds a
chunk of length exactly 1. -/
lemma stream_seqlen (emb : ℕ → Vec) (tokens : List ℕ) (start_pos : ℕ)
    (audio_out : Option (List Vec)) (left_prompts : Option (List ℕ))
    (hsp : start_pos ≠ 0) (htok : tokens ≠ []) :
    (assembleStep emb tokens start_pos audio_out left_prompts).1.length = 1 := by
  have hpos : 0 < tokens.length := List.length_pos.mpr htok
  rcases audio_out with _ | a <;> rcases left_prompts with _ | lp <;>
    simp only [assembleStep, if_neg hsp] <;>
    simp [List.length_drop] <;> omega

lemma runCalls_len (args : ModelArgs) (W : LLAMAWeights) :
    ∀ (steps : List GenCall) (m : CacheMap) (base : ℕ),
    (∀ c ∈ steps, c.tokens ≠ [] ∧ c.start_pos ≠ 0 ∧
      (assembleStep W.tok_embeddings c.tokens c.start_pos c.audio_out c.left_prompts).2 + 1 ≤
        args.max_seq_len * 2) →
    (∀ δ, δ < W.layers.length → ∃ kv, m δ = some (some kv) ∧
      kv.prev_key.length = base ∧ kv.prev_value.length = base) →
    ∃ m2, runCalls args W steps m = some m2 ∧
      ∀ δ, δ < W.layers.length → ∃ kv, m2 δ = some (some kv) ∧
        kv.prev_key.length = base + steps.length ∧
        kv.prev_value.length = base + steps.length := by
  intro steps
  induction steps with
  | nil =>
    intro m base _ hinv
    exact ⟨m, rfl, by simpa using hinv⟩
  | cons c rest ih =>
    intro m base hsteps hinv
    obtain ⟨htok, hsp, hbound⟩ := hsteps c (by simp)
    have hseq1 : (assembleStep W.tok_embeddings c.tokens c.start_pos c.audio_out
        c.left_prompts).1.length = 1 :=
      stream_seqlen _ _ _ _ _ hsp htok
    obtain ⟨lg, m2, heq, hgrow, _⟩ := forward_generate_len args W c m (by omega)
    obtain ⟨m3, hrest, hinv3⟩ := ih m2 (base + 1)
      (fun c2 hc2 => hsteps c2 (by simp [hc2]))
      (by
        intro δ hδ
        obtain ⟨kv, hkv, hk, hv⟩ := hgrow δ hδ
        obtain ⟨kv0, hkv0, hk0, hv0⟩ := hinv δ hδ
        refine ⟨kv, hkv, ?_, ?_⟩
        · rw [hk, hseq1, hkv0]
          simp [cacheKV, interpCache, hk0]
        · rw [hv, hseq1, hkv0]
          simp [cacheKV, interpCache, hv0])
    refine ⟨m3, ?_, ?_⟩
    · simp only [runCalls, heq]
      exact hrest
    · intro δ hδ
      obtain ⟨kv, hkv, hk, hv⟩ := hinv3 δ hδ
      exact ⟨kv, hkv, by rw [hk]; simp; omega, by rw [hv]; simp; omega⟩

/-- C4: one priming call of assembled prefix length P followed by N single-token
streaming calls leaves every layer's key and value caches with accumulated
length exactly P + N (the caches are append-only: each successful call appends
exactly its chunk). The hypotheses say each call stays within the rotary table
and each streaming call carries a nonempty token history at start_pos > 0. -/
theorem c4_cache_growth (args : ModelArgs) (W : LLAMAWeights) (tok0 : List ℕ)
    (audio_out : Option (List Vec)) (left_prompts : Option (List ℕ)) (steps : List GenCall)
    (hprime : (assembleStep W.tok_embeddings tok0 0 audio_out left_prompts).2 +
      (assembleStep W.tok_embeddings tok0 0 audio_out left_prompts).1.length ≤
        args.max_seq_len * 2)
    (hsteps : ∀ c ∈ steps, c.tokens ≠ [] ∧ c.start_pos ≠ 0 ∧
      (assembleStep W.tok_embeddings c.tokens c.start_pos c.audio_out c.left_prompts).2 + 1 ≤
        args.max_seq_len * 2) :
    ∃ m, runCalls args W (⟨tok0, 0, audio_out, left_prompts⟩ :: steps) emptyCacheMap = some m ∧
      ∀ δ, δ < W.layers.length → ∃ kv, m δ = some (some kv) ∧
        kv.prev_key.length =
          (assembleStep W.tok_embeddings tok0 0 audio_out left_prompts).1.length + steps.length ∧
        kv.prev_value.length =
          (assembleStep W.tok_embeddings tok0 0 audio_out left_prompts).1.length + steps.length := by
  obtain ⟨lg, m1, heq, hgrow, _⟩ :=
    forward_generate_len args W ⟨tok0, 0, audio_out, left_prompts⟩ emptyCacheMap hprime
  obtain ⟨m2, hrest, hinv⟩ := runCalls_len args W steps m1
    (assembleStep W.tok_embeddings tok0 0 audio_out left_prompts).1.length hsteps
    (by
      intro δ hδ
      obtain ⟨kv, hkv, hk, hv⟩ := hgrow δ hδ
      exact ⟨kv, hkv, by simpa [cacheKV, emptyCacheMap, interpCache] using hk,
        by simpa [cacheKV, emptyCacheMap, interpCache] using hv⟩)
  refine ⟨m2, ?_, hinv⟩
  simp only [runCalls, heq]
  exact hrest

/-- C4 witness: priming with one text token (P = 1) and one streaming call
(N = 1) against a one-layer model. -/
theorem c4_witness :
    ((assembleStep zeroWeights.tok_embeddings [0] 0 none none).2 +
      (assembleStep zeroWeights.tok_embeddings [0] 0 none none).1.length ≤
        argsTiny.max_seq_len * 2) ∧
    (∀ c ∈ ([⟨[0, 0], 1, none, none⟩] : List GenCall), c.tokens ≠ [] ∧ c.start_pos ≠ 0 ∧
      (assembleStep zeroWeights.tok_embeddings c.tokens c.start_pos c.audio_out
        c.left_prompts).2 + 1 ≤ argsTiny.max_seq_len * 2) ∧
    ∃ m, runCalls argsTiny zeroWeights
        (⟨[0], 0, none, none⟩ :: [⟨[0, 0], 1, none, none⟩]) emptyCacheMap = some m ∧
      ∀ δ, δ < zeroWeights.layers.length → ∃ kv, m δ = some (some kv) ∧
        kv.prev_key.length =
          (assembleStep zeroWeights.tok_embeddings [0] 0 none none).1.length + 1 ∧
        kv.prev_value.length =
          (assembleStep zeroWeights.tok_embeddings [0] 0 none none).1.length + 1 := by
  have h1 : (assembleStep zeroWeights.tok_embeddings [0] 0 none none).2 +
      (assembleStep zeroWeights.tok_embeddings [0] 0 none none).1.length ≤
        argsTiny.max_seq_len * 2 := by decide
  have h2 : ∀ c ∈ ([⟨[0, 0], 1, none, none⟩] : List GenCall), c.tokens ≠ [] ∧
      c.start_pos ≠ 0 ∧
      (assembleStep zeroWeights.tok_embeddings c.tokens c.start_pos c.audio_out
        c.left_prompts).2 + 1 ≤ argsTiny.max_seq_len * 2 := by
    intro c hc
    rcases hc with _ | ⟨_, hc⟩
    · exact ⟨by simp, by simp, by decide⟩
    · cases hc
  exact ⟨h1, h2, c4_cache_growth argsTiny zeroWeights [0] none none _ h1 h2⟩

/- C1: full-sequence forward vs incremental generation.
The proof goes through a position-indexed reference semantics: refFoldF folds
the layers as functions on absolute positions with causal attention over the
prefix; both code paths are shown to compute it. -/

lemma expE_coe (r : ℝ) : expE ((r : ℝ) : EReal) = Real.exp r := by
  simp [expE, EReal.coe_ne_bot, EReal.coe_ne_top]

lemma expE_bot : expE (⊥ : EReal) = 0 := by
  simp [expE]

lemma getD_map_range {α : Type} (f : ℕ → α) (n j : ℕ) (d : α) (hj : j < n) :
    ((List.range n).map f).getD j d = f j := by
  rw [List.getD_eq_getElem?_getD, List.getElem?_map, List.getElem?_range hj]
  rfl

lemma nth_map_range (f : ℕ → Vec) (n j : ℕ) (hj : j < n) :
    nth ((List.range n).map f) j = f j :=
  getD_map_range f n j _ hj

lemma zipWith_map_same {α β γ δ : Type} (g : β → γ → δ) (a : α → β) (b : α → γ)
    (l : List α) : List.zipWith g (l.map a) (l.map b) = l.map (fun x => g (a x) (b x)) := by
  induction l with
  | nil => rfl
  | cons x t ih => simp [ih]

lemma map_getD_range {α β : Type} (f : α → β) (l : List α) (d : α) :
    l.map f = (List.range l.length).map (fun p => f (l.getD p d)) := by
  apply List.ext_getElem
  · simp
  · intro i h1 h2
    simp only [List.getElem_map, List.getElem_range]
    rw [List.getD_eq_getElem l d (by simpa using h1)]

lemma take_range_map {α : Type} (f : ℕ → α) (L n : ℕ) (h : L ≤ n) :
    ((List.range n).map f).take L = (List.range L).map f := by
  rw [← List.map_take, List.take_range, Nat.min_eq_left h]

lemma pythonSlice_single {α : Type} (l : List α) (a : ℕ) (d : α) (ha : a < l.length) :
    pythonSlice l a (a + 1) = [l.getD a d] := by
  rw [List.getD_eq_getElem l d ha]
  simp only [pythonSlice, Nat.add_sub_cancel_left]
  rw [List.drop_eq_getElem_cons ha]
  rfl

/-- The rotary table slice taken by the full-sequence path. -/
lemma slice_table_list (args : ModelArgs) (L : ℕ) (hL : L ≤ args.max_seq_len * 2) :
    pythonSlice (precompute_freqs_cis (head_dim args) (args.max_seq_len * 2) 10000) 0 L
      = (List.range L).map (freq_cis_at (head_dim args) 10000) := by
  simp only [pythonSlice, precompute_freqs_cis, List.drop_zero, Nat.sub_zero]
  exact take_range_map _ _ _ hL

/-- The one-position rotary table slice taken by a streaming call. -/
lemma slice_table_single (args : ModelArgs) (k : ℕ) (hk : k < args.max_seq_len * 2) :
    pythonSlice (precompute_freqs_cis (head_dim args) (args.max_seq_len * 2) 10000) k (k + 1)
      = [freq_cis_at (head_dim args) 10000 k] := by
  rw [pythonSlice_single _ k (freq_cis_at (head_dim args) 10000 0)
    (by simp [precompute_freqs_cis, hk])]
  rw [precompute_freqs_cis, getD_map_range _ _ _ _ hk]

/-- The query projection actually used by the configured block: LoRA-adapted
when use_lora (with dropout = identity in eval mode), plain otherwise. -/
noncomputable def pqSel (args : ModelArgs) (w : AttentionWeights) : Vec → Vec :=
  if args.use_lora then
    lora_linear args.dim args.dim args.lora_r w.wq w.wq_lora_A w.wq_lora_B w.scaling (fun v => v)
  else matVec w.wq args.dim

noncomputable def pkSel (args : ModelArgs) (w : AttentionWeights) : Vec → Vec :=
  if args.use_lora then
    lora_linear args.dim args.dim args.lora_r w.wk w.wk_lora_A w.wk_lora_B w.scaling (fun v => v)
  else matVec w.wk args.dim

noncomputable def pvSel (args : ModelArgs) (w : AttentionWeights) : Vec → Vec :=
  if args.use_lora then
    lora_linear args.dim args.dim args.lora_r w.wv w.wv_lora_A w.wv_lora_B w.scaling (fun v => v)
  else matVec w.wv args.dim

noncomputable def poSel (args : ModelArgs) (w : AttentionWeights) : Vec → Vec :=
  if args.use_lora then
    lora_linear (args.n_heads * head_dim args) args.dim args.lora_r
      w.wo w.wo_lora_A w.wo_lora_B w.scaling (fun v => v)
  else matVec w.wo (args.n_heads * head_dim args)

lemma block_attn_sel (args : ModelArgs) (w : AttentionWeights) (xn : List Vec) (sp : ℕ)
    (freqs : List (ℕ → ℂ)) (mask : Option (ℕ → ℕ → EReal))
    (incr : Option (Option LayerCache)) :
    (if args.use_lora then Attention_LoRA_forward args w (fun v => v) xn sp freqs mask incr
     else Attention_forward args w xn sp freqs mask incr) =
    attnGeneric (head_dim args) (pqSel args w) (pkSel args w) (pvSel args w) (poSel args w)
      xn sp freqs mask incr := by
  cases hu : args.use_lora <;>
    simp [Attention_LoRA_forward, Attention_forward, pqSel, pkSel, pvSel, poSel, hu]

/-- Reference causal attention of one query at position p over key/value
functions of the absolute position. -/
noncomputable def causalAttn (D : ℕ) (q : Vec) (ks vs : ℕ → Vec) (p : ℕ) : Vec :=
  fun idx =>
    ∑ j ∈ Finset.range (p + 1),
      Real.exp (rawScore D q (ks j) (idx / D)) /
        (∑ jj ∈ Finset.range (p + 1), Real.exp (rawScore D q (ks jj) (idx / D))) *
        vs j idx

/-- The rotated key this layer caches for absolute position j, as a function of
the layer input sequence xs. -/
noncomputable def layerKey (args : ModelArgs) (lw : LayerWeights) (xs : ℕ → Vec) (j : ℕ) :
    Vec :=
  apply_rotary_one (head_dim args) (freq_cis_at (head_dim args) 10000 j)
    (pkSel args lw.attention (RMSNorm_forward args.dim args.norm_eps lw.attention_norm (xs j)))

/-- The value this layer caches for absolute position j. -/
noncomputable def layerVal (args : ModelArgs) (lw : LayerWeights) (xs : ℕ → Vec) (j : ℕ) :
    Vec :=
  pvSel args lw.attention (RMSNorm_forward args.dim args.norm_eps lw.attention_norm (xs j))

/-- Reference semantics of one TransformerBlock at absolute position p with
causal attention over positions 0..p of its input sequence xs. -/
noncomputable def causalLayerOut (args : ModelArgs) (lw : LayerWeights) (xs : ℕ → Vec)
    (p : ℕ) : Vec :=
  let q := apply_rotary_one (head_dim args) (freq_cis_at (head_dim args) 10000 p)
    (pqSel args lw.attention (RMSNorm_forward args.dim args.norm_eps lw.attention_norm (xs p)))
  let ao := poSel args lw.attention
    (causalAttn (head_dim args) q (layerKey args lw xs) (layerVal args lw xs) p)
  let hmid : Vec := fun i => xs p i + ao i
  fun i => hmid i + FeedForward_forward args.dim
    (FeedForward_init_hidden (4 * args.dim) args.multiple_of) lw.w1 lw.w2 lw.w3
    (RMSNorm_forward args.dim args.norm_eps lw.ffn_norm hmid) i

/-- Reference semantics of a stack of layers, as a transformer of
position-indexed sequences. -/
noncomputable def refFoldF (args : ModelArgs) : List LayerWeights → (ℕ → Vec) → (ℕ → Vec)
  | [], xs => xs
  | lw :: rest, xs => refFoldF args rest (causalLayerOut args lw xs)

/-- The embedded token sequence as a function of the absolute position. -/
noncomputable def embSeq (W : LLAMAWeights) (tokens : List ℕ) : ℕ → Vec :=
  fun p => W.tok_embeddings (tokens.getD p 0)

/-- Unmasked attention of one query against p+1 cached keys equals the
reference causal attention at position p: the softmax over the whole
(cache ++ new) axis is already the causal softmax. -/
lemma attnOut_singleton (D : ℕ) (q : Vec) (ksL vsL : List Vec) (ks vs : ℕ → Vec) (p : ℕ)
    (hkL : ksL.length = p + 1)
    (hk : ∀ j, j < p + 1 → nth ksL j = ks j) (hv : ∀ j, j < p + 1 → nth vsL j = vs j) :
    attnOut D [q] ksL vsL none = [causalAttn D q ks vs p] := by
  have h1 : List.range 1 = [0] := rfl
  simp only [attnOut, List.length_singleton, h1, List.map_cons, List.map_nil]
  congr 1
  funext idx
  simp only [causalAttn, hkL]
  have hterm : ∀ j, j < p + 1 →
      expE ((rawScore D (nth [q] 0) (nth ksL j) (idx / D) : ℝ) : EReal)
        = Real.exp (rawScore D q (ks j) (idx / D)) := by
    intro j hj
    rw [expE_coe, hk j hj]
    rfl
  have hden : (∑ jj ∈ Finset.range (p + 1),
      expE ((rawScore D (nth [q] 0) (nth ksL jj) (idx / D) : ℝ) : EReal))
      = ∑ jj ∈ Finset.range (p + 1), Real.exp (rawScore D q (ks jj) (idx / D)) :=
    Finset.sum_congr rfl fun jj hjj => hterm jj (Finset.mem_range.mp hjj)
  refine Finset.sum_congr rfl fun j hj => ?_
  rw [Finset.mem_range] at hj
  rw [hterm j hj, hv j hj, hden]

/-- Masked full-sequence attention row p equals the reference causal attention
at position p: -inf entries exponentiate to 0 and drop from numerator and
denominator. -/
lemma attnOut_causal (D L : ℕ) (qsL ksL vsL : List Vec) (qs ks vs : ℕ → Vec)
    (hqL : qsL.length = L) (hkL : ksL.length = L)
    (hq : ∀ j, j < L → nth qsL j = qs j) (hk : ∀ j, j < L → nth ksL j = ks j)
    (hv : ∀ j, j < L → nth vsL j = vs j) :
    attnOut D qsL ksL vsL (some (causal_mask 0)) =
      (List.range L).map (fun p => causalAttn D (qs p) ks vs p) := by
  simp only [attnOut, hqL, hkL]
  refine List.map_congr_left fun p hp => ?_
  rw [List.mem_range] at hp
  funext idx
  simp only [causalAttn]
  have hterm : ∀ j, j < L →
      expE ((rawScore D (nth qsL p) (nth ksL j) (idx / D) : ℝ) + causal_mask 0 p j)
        = if j < p + 1 then Real.exp (rawScore D (qs p) (ks j) (idx / D)) else 0 := by
    intro j hj
    by_cases hcase : j < p + 1
    · have hmask : causal_mask 0 p j = 0 := by
        simp only [causal_mask]
        rw [if_neg (by omega)]
      rw [hmask, add_zero, expE_coe, hq p hp, hk j hj, if_pos hcase]
    · have hmask : causal_mask 0 p j = ⊥ := by
        simp only [causal_mask]
        rw [if_pos (by omega)]
      rw [hmask, EReal.add_bot, expE_bot, if_neg hcase]
  have hsubset : Finset.range (p + 1) ⊆ Finset.range L :=
    Finset.range_subset.mpr (by omega)
  have hden : (∑ jj ∈ Finset.range L,
      expE ((rawScore D (nth qsL p) (nth ksL jj) (idx / D) : ℝ) + causal_mask 0 p jj))
      = ∑ jj ∈ Finset.range (p + 1), Real.exp (rawScore D (qs p) (ks jj) (idx / D)) := by
    rw [Finset.sum_congr rfl fun jj hjj => hterm jj (Finset.mem_range.mp hjj)]
    rw [← Finset.sum_subset hsubset
      (fun x _ hx => if_neg (by rw [Finset.mem_range] at hx; omega))]
    exact Finset.sum_congr rfl fun j hj => if_pos (Finset.mem_range.mp hj)
  have houter : ∀ j, j < L →
      expE ((rawScore D (nth qsL p) (nth ksL j) (idx / D) : ℝ) + causal_mask 0 p j) /
        (∑ jj ∈ Finset.range L,
          expE ((rawScore D (nth qsL p) (nth ksL jj) (idx / D) : ℝ) + causal_mask 0 p jj)) *
        nth vsL j idx
        = if j < p + 1 then
            Real.exp (rawScore D (qs p) (ks j) (idx / D)) /
              (∑ jj ∈ Finset.range (p + 1), Real.exp (rawScore D (qs p) (ks jj) (idx / D))) *
              vs j idx
          else 0 := by
    intro j hj
    rw [hterm j hj, hden]
    by_cases hcase : j < p + 1
    · rw [if_pos hcase, if_pos hcase, hv j hj]
    · rw [if_neg hcase, if_neg hcase, zero_div, zero_mul]
  rw [Finset.sum_congr rfl fun j hj => houter j (Finset.mem_range.mp hj)]
  rw [← Finset.sum_subset hsubset
    (fun x _ hx => if_neg (by rw [Finset.mem_range] at hx; omega))]
  exact Finset.sum_congr rfl fun j hj => if_pos (Finset.mem_range.mp hj)

/-- One streaming step of one layer: a single query at absolute position k with
the cache holding exactly the keys/values of positions 0..k-1 computes the
reference causal layer output at k and extends the cache to 0..k. -/
lemma block_one (args : ModelArgs) (lw : LayerWeights) (xs : ℕ → Vec) (k : ℕ)
    (d : Option LayerCache)
    (hd : interpCache d = ((List.range k).map (layerKey args lw xs),
                           (List.range k).map (layerVal args lw xs))) :
    TransformerBlock_forward args lw [xs k] k [freq_cis_at (head_dim args) 10000 k] none
        (some d)
      = some ([causalLayerOut args lw xs k],
          some ⟨(List.range (k + 1)).map (layerKey args lw xs),
                (List.range (k + 1)).map (layerVal args lw xs)⟩) := by
  simp only [TransformerBlock_forward, List.map_cons, List.map_nil]
  rw [block_attn_sel]
  rw [attnGeneric_some _ _ _ _ _ _ _ _ _ _ (by simp)]
  rw [hd]
  simp only [List.map_cons, List.map_nil, List.zipWith_cons_cons, List.zipWith_nil_right]
  have hkeys : (List.range k).map (layerKey args lw xs) ++
      [apply_rotary_one (head_dim args) (freq_cis_at (head_dim args) 10000 k)
        (pkSel args lw.attention
          (RMSNorm_forward args.dim args.norm_eps lw.attention_norm (xs k)))]
      = (List.range (k + 1)).map (layerKey args lw xs) := by
    rw [List.range_succ, List.map_append]
    rfl
  have hvals : (List.range k).map (layerVal args lw xs) ++
      [pvSel args lw.attention
        (RMSNorm_forward args.dim args.norm_eps lw.attention_norm (xs k))]
      = (List.range (k + 1)).map (layerVal args lw xs) := by
    rw [List.range_succ, List.map_append]
    rfl
  rw [hkeys, hvals]
  rw [attnOut_singleton (head_dim args) _ _ _ (layerKey args lw xs) (layerVal args lw xs) k
    (by simp) (fun j hj => nth_map_range _ _ _ hj) (fun j hj => nth_map_range _ _ _ hj)]
  rfl

/-- One full-sequence step of one layer with the causal mask and no cache maps
every position p to the reference causal layer output at p. -/
lemma block_full (args : ModelArgs) (lw : LayerWeights) (xs : ℕ → Vec) (L : ℕ) :
    TransformerBlock_forward args lw ((List.range L).map xs) 0
      ((List.range L).map (freq_cis_at (head_dim args) 10000)) (some (causal_mask 0)) none
      = some ((List.range L).map (causalLayerOut args lw xs), none) := by
  simp only [TransformerBlock_forward, List.map_map]
  rw [block_attn_sel]
  rw [attnGeneric_some_nocache _ _ _ _ _ _ _ _ _ (by simp)]
  simp only [List.map_map, zipWith_map_same, Function.comp]
  rw [show (fun x => apply_rotary_one (head_dim args) (freq_cis_at (head_dim args) 10000 x)
      (pkSel args lw.attention (RMSNorm_forward args.dim args.norm_eps lw.attention_norm (xs x))))
    = layerKey args lw xs from rfl]
  rw [show (pvSel args lw.attention ∘ RMSNorm_forward args.dim args.norm_eps lw.attention_norm ∘ xs)
    = layerVal args lw xs from rfl]
  rw [attnOut_causal (head_dim args) L _ _ _
    (fun p => apply_rotary_one (head_dim args) (freq_cis_at (head_dim args) 10000 p)
      (pqSel args lw.attention
        (RMSNorm_forward args.dim args.norm_eps lw.attention_norm (xs p))))
    (layerKey args lw xs) (layerVal args lw xs)
    (by simp) (by simp)
    (fun j hj => nth_map_range _ _ _ hj) (fun j hj => nth_map_range _ _ _ hj)
    (fun j hj => nth_map_range _ _ _ hj)]
  simp only [List.map_map, zipWith_map_same]
  rfl

/-- The full-sequence layer loop computes the reference fold. -/
lemma runLayersFull_ref (args : ModelArgs) :
    ∀ (ls : List LayerWeights) (xs : ℕ → Vec) (L : ℕ),
    runLayersFull args 0 ((List.range L).map (freq_cis_at (head_dim args) 10000))
      (some (causal_mask 0)) ls ((List.range L).map xs)
      = some ((List.range L).map (refFoldF args ls xs)) := by
  intro ls
  induction ls with
  | nil => intro xs L; rfl
  | cons lw rest ih =>
    intro xs L
    simp only [runLayersFull, block_full args lw xs L, refFoldF]
    exact ih (causalLayerOut args lw xs) L

/-- One single-token streaming pass of the layer loop: starting from caches
holding all keys/values of positions 0..k-1 of the reference computation, the
input [xs k] flows to [refFoldF ls xs k] and every cache extends to 0..k. -/
lemma runLayers_one (args : ModelArgs) :
    ∀ (ls : List LayerWeights) (i0 : ℕ) (m : CacheMap) (xs : ℕ → Vec) (k : ℕ),
    (∀ δ lw, ls.get? δ = some lw → cacheKV (m (i0 + δ)) =
        ((List.range k).map (layerKey args lw (refFoldF args (ls.take δ) xs)),
         (List.range k).map (layerVal args lw (refFoldF args (ls.take δ) xs)))) →
    ∃ m2, runLayers args k [freq_cis_at (head_dim args) 10000 k] none ls i0 (some m) [xs k]
        = some ([refFoldF args ls xs k], some m2) ∧
      (∀ δ lw, ls.get? δ = some lw → cacheKV (m2 (i0 + δ)) =
          ((List.range (k + 1)).map (layerKey args lw (refFoldF args (ls.take δ) xs)),
           (List.range (k + 1)).map (layerVal args lw (refFoldF args (ls.take δ) xs)))) ∧
      (∀ j, j < i0 ∨ i0 + ls.length ≤ j → m2 j = m j) := by
  intro ls
  induction ls with
  | nil =>
    intro i0 m xs k _
    exact ⟨m, rfl, by intro δ lw h; simp at h, by intro j _; rfl⟩
  | cons lw rest ih =>
    intro i0 m xs k hinv
    have hd : interpCache ((m i0).getD none) =
        ((List.range k).map (layerKey args lw xs),
         (List.range k).map (layerVal args lw xs)) := by
      have h0 := hinv 0 lw rfl
      simpa [cacheKV] using h0
    have hblock := block_one args lw xs k ((m i0).getD none) hd
    set newkv : LayerCache :=
      ⟨(List.range (k + 1)).map (layerKey args lw xs),
       (List.range (k + 1)).map (layerVal args lw xs)⟩ with hnewkv
    obtain ⟨m2, hrec, hinv2, hsame⟩ := ih (i0 + 1) (cmUpdate m i0 (some newkv))
      (causalLayerOut args lw xs) k
      (by
        intro δ lw2 hget
        have hidx : i0 + 1 + δ = i0 + (δ + 1) := by omega
        have hup : cmUpdate m i0 (some newkv) (i0 + 1 + δ) = m (i0 + 1 + δ) := by
          simp only [cmUpdate]
          rw [if_neg (by omega : ¬ (i0 + 1 + δ = i0))]
        rw [hup, hidx]
        exact hinv (δ + 1) lw2 hget)
    refine ⟨m2, ?_, ?_, ?_⟩
    · simp only [runLayers, hblock]
      exact hrec
    · intro δ lw2 hget
      cases δ with
      | zero =>
        have hlw : lw = lw2 := by simpa using hget
        subst hlw
        have hm2 : m2 (i0 + 0) = some (some newkv) := by
          rw [Nat.add_zero, hsame i0 (by omega)]
          simp [cmUpdate]
        rw [hm2]
        rfl
      | succ δ2 =>
        have hidx : i0 + (δ2 + 1) = i0 + 1 + δ2 := by omega
        rw [hidx]
        exact hinv2 δ2 lw2 (by simpa using hget)
    · intro j hj
      simp only [List.length_cons] at hj
      rw [hsame j (by omega)]
      simp only [cmUpdate]
      rw [if_neg (by omega : ¬ (j = i0))]

lemma take_one_getD {α : Type} (l : List α) (d : α) (h : 0 < l.length) :
    l.take 1 = [l.getD 0 d] := by
  cases l with
  | nil => simp at h
  | cons a t => rfl

lemma drop_getD {α : Type} (l : List α) (n : ℕ) (d : α) :
    (l.drop n).getD 0 d = l.getD n d := by
  rw [List.getD_eq_getElem?_getD, List.getD_eq_getElem?_getD, List.getElem?_drop,
    Nat.add_zero]

/-- Every call of the incremental protocol (history take (k+1) at caller
position k, no audio, no left prompt) feeds exactly the embedding of token k at
internal position k — for the priming call (k = 0) and for every streaming call
alike. -/
lemma assemble_c1 (W : LLAMAWeights) (tokens : List ℕ) (k : ℕ) (hk : k < tokens.length) :
    assembleStep W.tok_embeddings (tokens.take (k + 1)) k none none
      = ([embSeq W tokens k], k) := by
  cases k with
  | zero =>
    simp only [assembleStep, if_pos rfl]
    rw [take_one_getD tokens 0 (by omega)]
    rfl
  | succ k2 =>
    simp only [assembleStep]
    rw [if_neg (by omega : ¬ (k2 + 1 = 0))]
    have hlen : (tokens.take (k2 + 1 + 1)).length = k2 + 1 + 1 := by
      rw [List.length_take]
      omega
    rw [hlen]
    rw [show k2 + 1 + 1 - 1 = k2 + 1 by omega]
    rw [List.drop_take]
    rw [show k2 + 1 + 1 - (k2 + 1) = 1 by omega]
    rw [take_one_getD (tokens.drop (k2 + 1)) 0 (by rw [List.length_drop]; omega)]
    rw [drop_getD]
    rfl

lemma runCalls_append (args : ModelArgs) (W : LLAMAWeights) (l1 l2 : List GenCall) :
    ∀ m : CacheMap, runCalls args W (l1 ++ l2) m =
      match runCalls args W l1 m with
      | some m2 => runCalls args W l2 m2
      | none => none := by
  induction l1 with
  | nil => intro m; rfl
  | cons c rest ih =>
    intro m
    simp only [List.cons_append, runCalls]
    cases LLAMA_forward_generate args W c.tokens c.start_pos c.audio_out c.left_prompts
        (some m) with
    | none => rfl
    | some r =>
      obtain ⟨lg, st⟩ := r
      cases st with
      | none => rfl
      | some m2 => exact ih m2

/-- One call of the incremental protocol: from a state holding positions 0..k-1
it emits the logits of the reference hidden state at position k and advances
every layer cache to 0..k. -/
lemma forward_generate_c1_step (args : ModelArgs) (W : LLAMAWeights) (tokens : List ℕ)
    (k : ℕ) (hk : k < tokens.length) (hcap : tokens.length ≤ args.max_seq_len * 2)
    (m : CacheMap)
    (hinv : ∀ δ lw, W.layers.get? δ = some lw → cacheKV (m δ) =
      ((List.range k).map (layerKey args lw (refFoldF args (W.layers.take δ) (embSeq W tokens))),
       (List.range k).map (layerVal args lw (refFoldF args (W.layers.take δ) (embSeq W tokens))))) :
    ∃ m2, LLAMA_forward_generate args W (tokens.take (k + 1)) k none none (some m)
        = some ([outProj args W (refFoldF args W.layers (embSeq W tokens) k)], some m2) ∧
      (∀ δ lw, W.layers.get? δ = some lw → cacheKV (m2 δ) =
        ((List.range (k + 1)).map
          (layerKey args lw (refFoldF args (W.layers.take δ) (embSeq W tokens))),
         (List.range (k + 1)).map
          (layerVal args lw (refFoldF args (W.layers.take δ) (embSeq W tokens))))) := by
  obtain ⟨m2, hrun, hinv2, _⟩ := runLayers_one args W.layers 0 m (embSeq W tokens) k
    (by intro δ lw h; rw [Nat.zero_add]; exact hinv δ lw h)
  refine ⟨m2, ?_, by intro δ lw h; have h2 := hinv2 δ lw h; rwa [Nat.zero_add] at h2⟩
  simp only [LLAMA_forward_generate, assemble_c1 W tokens k hk, List.length_singleton]
  rw [if_neg (by omega : ¬ (1 < 1))]
  rw [slice_table_single args k (by omega)]
  rw [hrun]
  rfl

/-- The shared incremental state after k calls holds, per layer, exactly the
reference keys/values of positions 0..k-1. -/
lemma incrementalState_ref (args : ModelArgs) (W : LLAMAWeights) (tokens : List ℕ)
    (hcap : tokens.length ≤ args.max_seq_len * 2) :
    ∀ k, k ≤ tokens.length →
    ∃ m, incrementalState args W tokens k = some m ∧
      ∀ δ lw, W.layers.get? δ = some lw → cacheKV (m δ) =
        ((List.range k).map
          (layerKey args lw (refFoldF args (W.layers.take δ) (embSeq W tokens))),
         (List.range k).map
          (layerVal args lw (refFoldF args (W.layers.take δ) (embSeq W tokens)))) := by
  intro k
  induction k with
  | zero =>
    intro _
    refine ⟨emptyCacheMap, rfl, ?_⟩
    intro δ lw _
    rfl
  | succ k2 ih =>
    intro hk
    obtain ⟨m, hm, hinv⟩ := ih (by omega)
    obtain ⟨m2, hstep, hinv2⟩ :=
      forward_generate_c1_step args W tokens k2 (by omega) hcap m hinv
    refine ⟨m2, ?_, hinv2⟩
    have hsplit : c1Calls tokens (k2 + 1) =
        c1Calls tokens k2 ++ [⟨tokens.take (k2 + 1), k2, none, none⟩] := by
      simp [c1Calls, List.range_succ]
    simp only [incrementalState] at hm ⊢
    rw [hsplit, runCalls_append, hm]
    simp only [runCalls, hstep]

/-- The per-layer hidden state of incremental call k+1 equals the reference
fold of the first i layers at position k. -/
lemma generateHidden_ref (args : ModelArgs) (W : LLAMAWeights) (tokens : List ℕ)
    (hcap : tokens.length ≤ args.max_seq_len * 2) (k : ℕ) (hk : k < tokens.length)
    (i : ℕ) :
    generateHidden args W tokens k i =
      some [refFoldF args (W.layers.take i) (embSeq W tokens) k] := by
  obtain ⟨m, hm, hinv⟩ := incrementalState_ref args W tokens hcap k (by omega)
  have hinvTake : ∀ δ lw, (W.layers.take i).get? δ = some lw → cacheKV (m (0 + δ)) =
      ((List.range k).map
        (layerKey args lw (refFoldF args ((W.layers.take i).take δ) (embSeq W tokens))),
       (List.range k).map
        (layerVal args lw (refFoldF args ((W.layers.take i).take δ) (embSeq W tokens)))) := by
    intro δ lw hget
    have hδ : δ < i := by
      have := List.get?_eq_some.mp hget
      obtain ⟨hlt, _⟩ := this
      rw [List.length_take] at hlt
      omega
    have hget2 : W.layers.get? δ = some lw := by
      rw [List.get?_take hδ] at hget
      exact hget
    have htt : (W.layers.take i).take δ = W.layers.take δ := by
      rw [List.take_take, Nat.min_eq_left (by omega)]
    rw [Nat.zero_add, htt]
    exact hinv δ lw hget2
  obtain ⟨m2, hrun, _, _⟩ :=
    runLayers_one args (W.layers.take i) 0 m (embSeq W tokens) k hinvTake
  simp only [generateHidden, hm, Option.bind_eq_bind, Option.some_bind]
  simp only [assemble_c1 W tokens k hk, List.length_singleton]
  rw [if_neg (by omega : ¬ (1 < 1))]
  rw [slice_table_single args k (by omega)]
  rw [hrun]
  rfl

/-- The logits of incremental call k+1 are the projected reference hidden state
at position k. -/
lemma incrementalLogits_ref (args : ModelArgs) (W : LLAMAWeights) (tokens : List ℕ)
    (hcap : tokens.length ≤ args.max_seq_len * 2) (k : ℕ) (hk : k < tokens.length) :
    incrementalLogits args W tokens (k + 1) =
      some [outProj args W (refFoldF args W.layers (embSeq W tokens) k)] := by
  obtain ⟨m, hm, hinv⟩ := incrementalState_ref args W tokens hcap k (by omega)
  obtain ⟨m2, hstep, _⟩ := forward_generate_c1_step args W tokens k hk hcap m hinv
  simp only [incrementalLogits, Nat.add_sub_cancel, hm, Option.bind_eq_bind,
    Option.some_bind, hstep, Option.map_some']

/-- The full-sequence hidden state after the first i layers is the reference
fold of those layers over all positions. -/
lemma fullHidden_ref (args : ModelArgs) (W : LLAMAWeights) (tokens : List ℕ) (i : ℕ)
    (hcap : tokens.length ≤ args.max_seq_len * 2) :
    fullHidden args W tokens i =
      some ((List.range tokens.length).map
        (refFoldF args (W.layers.take i) (embSeq W tokens))) := by
  simp only [fullHidden]
  rw [map_getD_range W.tok_embeddings tokens 0]
  simp only [List.length_map, List.length_range]
  rw [slice_table_list args tokens.length hcap]
  exact runLayersFull_ref args (W.layers.take i) (embSeq W tokens) tokens.length

/-- The full-sequence logits are the projected reference hidden states. -/
lemma LLAMA_forward_ref (args : ModelArgs) (W : LLAMAWeights) (tokens : List ℕ)
    (hcap : tokens.length ≤ args.max_seq_len * 2) :
    LLAMA_forward args W tokens =
      some ((List.range tokens.length).map
        (fun p => outProj args W (refFoldF args W.layers (embSeq W tokens) p))) := by
  simp only [LLAMA_forward]
  rw [map_getD_range W.tok_embeddings tokens 0]
  rw [show (fun p => W.tok_embeddings (tokens.getD p 0)) = embSeq W tokens from rfl]
  simp only [List.length_map, List.length_range]
  rw [slice_table_list args tokens.length hcap]
  rw [runLayersFull_ref args W.layers (embSeq W tokens) tokens.length]
  simp [List.map_map, Function.comp]

/-- C1: for every token sequence that fits the rotary table, the
(spec-modelled) full-sequence forward and the incremental protocol — one
priming call with the first token at start_pos 0, then streaming calls feeding
the running history one new token at a time through the shared per-layer
cache — produce the same per-layer hidden states and the same final logits,
position by position; over exact real arithmetic the floating-point tolerance
becomes equality. -/
theorem c1_full_equals_incremental (args : ModelArgs) (W : LLAMAWeights) (tokens : List ℕ)
    (hcap : tokens.length ≤ args.max_seq_len * 2) (k : ℕ) (hk : k < tokens.length) :
    (∀ i, ∃ hf, fullHidden args W tokens i = some hf ∧
      generateHidden args W tokens k i = some [nth hf k]) ∧
    (∃ lg, LLAMA_forward args W tokens = some lg ∧
      incrementalLogits args W tokens (k + 1) = some [nth lg k]) := by
  constructor
  · intro i
    refine ⟨_, fullHidden_ref args W tokens i hcap, ?_⟩
    rw [generateHidden_ref args W tokens hcap k hk i]
    rw [nth_map_range _ _ _ hk]
  · refine ⟨_, LLAMA_forward_ref args W tokens hcap, ?_⟩
    rw [incrementalLogits_ref args W tokens hcap k hk]
    rw [nth_map_range _ _ _ hk]

/-- C1 witness: the two-token sequence [0, 1] on a one-layer model, comparing
position 1. -/
theorem c1_witness :
    ([0, 1] : List ℕ).length ≤ argsTiny.max_seq_len * 2 ∧
    (1 : ℕ) < ([0, 1] : List ℕ).length ∧
    ((∀ i, ∃ hf, fullHidden argsTiny zeroWeights [0, 1] i = some hf ∧
        generateHidden argsTiny zeroWeights [0, 1] 1 i = some [nth hf 1]) ∧
      (∃ lg, LLAMA_forward argsTiny zeroWeights [0, 1] = some lg ∧
        incrementalLogits argsTiny zeroWeights [0, 1] 2 = some [nth lg 1])) :=
  ⟨by decide, by decide,
    c1_full_equals_incremental argsTiny zeroWeights [0, 1] (by decide) 1 (by decide)⟩

end MTLLM
